import Mathlib

/-!
# Lygiagretus-egzaminas: host program `main.cpp`

A shallow embedding of the host side of the program (`src/main.cpp`): the
post-pass of `openclThread`, the outbound worker `pythonSender`, the inbound
worker `pythonReceiver` and the merge loop of `main`.

Conventions of the embedding.

* `std::string` is a `List Char` (one `Char` per C++ `char`).
* `int` is an `Int`; where the code converts a size to `int` the conversion is
  written out as `toInt32`.
* `double` is a type parameter `D`: the host never computes with a `double`, it
  only copies, parses (`std::stod`) and prints (`std::to_string`) them, and
  these two library functions are parameters of the workers that use them.
* Calls to the operating system and to the device (sockets, the OpenCL
  run time) are inputs of the model: the outcomes of `connect`, `send` and
  `recv` are given as sequences, the device program as a function of the data
  the host hands to it.
-/

namespace Lygiagretus

/-! ## Data model -/

/-- The `struct FoodItem` of `main.cpp`, lines 40-46. -/
structure FoodItem (D : Type) where
  name : List Char
  quantity : Int
  price : D
  opencl_result : Nat
  python_result : D
  deriving DecidableEq

/-! ## The merge loop of `main` (lines 506-516) -/

/-- The inner `for (auto& python_item : pythonFiltered)` loop, lines 509-515,
for one `cl_item`: the state is `filtered_items`; at the first `python_item`
with the same name the item gets that entry's `python_result`, is pushed, and
the loop is left (`break`). The assignment goes through the reference
`cl_item` and so also changes `openclFiltered`, which is not read afterwards. -/
def mergeInner {D : Type} (cl_item : FoodItem D) (filtered_items : List (FoodItem D)) :
    List (FoodItem D) → List (FoodItem D)
  | [] => filtered_items
  | python_item :: rest =>
    if cl_item.name = python_item.name then
      filtered_items ++ [{ cl_item with python_result := python_item.python_result }]
    else
      mergeInner cl_item filtered_items rest

/-- The outer `for (auto& cl_item : openclFiltered)` loop, lines 508-516,
started from the given `filtered_items`. -/
def mergeLoop {D : Type} (pythonFiltered : List (FoodItem D)) :
    List (FoodItem D) → List (FoodItem D) → List (FoodItem D)
  | [], filtered_items => filtered_items
  | cl_item :: rest, filtered_items =>
    mergeLoop pythonFiltered rest (mergeInner cl_item filtered_items pythonFiltered)

/-- The merge step of `main`: `filtered_items` starts empty (line 506). -/
def merge {D : Type} (openclFiltered pythonFiltered : List (FoodItem D)) : List (FoodItem D) :=
  mergeLoop pythonFiltered openclFiltered []

/-- The merged entry the specification describes for one accelerator entry:
the entry itself with the score of the first peer entry of the same name, if
there is one. -/
def mergedEntry {D : Type} (P : List (FoodItem D)) (a : FoodItem D) : Option (FoodItem D) :=
  (P.find? (fun p => decide (p.name = a.name))).map
    (fun p => { a with python_result := p.python_result })

/-! ## The accelerator worker `openclThread` (lines 70-302) -/

/-- The conversion `static_cast<int>(items.size())` of lines 216 and 280: the
size reduced to a 32-bit two's-complement `int`. -/
def toInt32 (n : Nat) : Int := ((n : Int) + 2 ^ 31) % 2 ^ 32 - 2 ^ 31

/-- The host vectors of the "Prepare data" block, lines 180-191. -/
structure Staged (F : Type) where
  quantities : List Int
  prices : List F
  indexes : List Int
  output_count : List Int
  results : List Nat

/-- Lines 181-191: `quantities` and `prices` (each price lowered to `float` by
`lower`) are filled record by record, `indexes` holds `-1` in every slot,
`output_count` the single value `0` and `results` is zero-filled. -/
def prepareData {D F : Type} (lower : D → F) (items : List (FoodItem D)) : Staged F :=
  { quantities := items.map (fun item => item.quantity)
    prices := items.map (fun item => lower item.price)
    indexes := List.replicate items.length (-1)
    output_count := List.replicate 1 0
    results := List.replicate items.length 0 }

/-- The three host vectors after the `clEnqueueReadBuffer` calls of lines
243-269. -/
structure ReadBack where
  results : List Nat
  indexes : List Int
  output_count : List Int

/-- A device program, as the host sees it: a function of the data the host
hands over. Lines 194-221 create buffers from `quantities`, `indexes` and
`output_count` only (`result_buffer` is created without host data) and set the
five kernel arguments `qty_buffer`, `result_buffer`, `index_buffer`,
`output_count_buffer` and `count`; line 224 sets the global size. The staged
`prices` vector is given to no buffer and to no argument. -/
abbrev Device := (quantities : List Int) → (indexes : List Int) → (output_count : List Int) →
  (count : Int) → (global_size : Nat) → ReadBack

/-- One pass of the "Store results" loop body, lines 279-284, for slot `i`;
`none` is an access outside a vector. -/
def storeStep {D : Type} (items : List (FoodItem D)) (indexes : List Int) (results : List Nat)
    (filtered_items : List (FoodItem D)) (i : Nat) : Option (List (FoodItem D)) :=
  match indexes[i]? with
  | none => none
  | some org_index =>
    if 0 ≤ org_index ∧ org_index < toInt32 items.length then
      match items[org_index.toNat]?, results[i]? with
      | some item, some r => some (filtered_items ++ [{ item with opencl_result := r }])
      | _, _ => none
    else
      some filtered_items

/-- The loop `for (int i = 0; i < output_count[0]; i++)` of lines 278-285. -/
def storeResults {D : Type} (items : List (FoodItem D)) (output_count0 : Int)
    (indexes : List Int) (results : List Nat) (filtered_items : List (FoodItem D)) :
    Option (List (FoodItem D)) :=
  (List.range output_count0.toNat).foldlM (storeStep items indexes results) filtered_items

/-- The function `openclThread`, lines 70-302. `setupOk` says that platform, device,
context, queue, program and kernel were obtained (each failure returns before
anything is stored); `device` is the behaviour of the compiled kernel. -/
def openclThread {D F : Type} (device : Device) (lower : D → F) (setupOk : Bool)
    (items : List (FoodItem D)) (filtered_items : List (FoodItem D)) :
    Option (List (FoodItem D)) :=
  if setupOk then
    let staged := prepareData lower items
    let count := toInt32 items.length
    let global_size := items.length
    let rb := device staged.quantities staged.indexes staged.output_count count global_size
    match rb.output_count[0]? with
    | none => none
    | some c => storeResults items c rb.indexes rb.results filtered_items
  else
    some filtered_items

/-- One work-item of the modelled kernel: it reads its quantity, and when the
predicate passes it takes the next free slot from the counter and writes its
score and its index there. -/
def workItem (pass : Int → Bool) (score : Int → Nat) (quantities : List Int) (count : Int)
    (rb : ReadBack) (gid : Nat) : ReadBack :=
  match quantities[gid]?, rb.output_count[0]? with
  | some q, some c =>
    if (gid : Int) < count ∧ pass q then
      { results := rb.results.set c.toNat (score q)
        indexes := rb.indexes.set c.toNat (gid : Int)
        output_count := rb.output_count.set 0 (c + 1) }
    else rb
  | _, _ => rb

/-- Modelled from the spec: the device kernel `process_items` (the file
`kernel.cl` is not part of the sources). One work-item per record evaluates the
filter predicate `pass` on the data the host passes for it, which is its
quantity; on pass it claims the next output slot through the shared counter and
writes its score and original index there, on fail it writes nothing. The
work-items are run in index order, and the scores buffer, which the host does
not initialise, starts zero-filled. -/
def process_items (pass : Int → Bool) (score : Int → Nat) : Device :=
  fun quantities indexes output_count count global_size =>
    (List.range global_size).foldl (workItem pass score quantities count)
      { results := List.replicate quantities.length 0, indexes := indexes,
        output_count := output_count }

/-- The entry of one read-back slot `(index, score)` as the specification
describes it: the source record at `index` with that score when the index is a
position of the store, nothing otherwise. -/
def slotEntry {D : Type} (items : List (FoodItem D)) (slot : Int × Nat) : Option (FoodItem D) :=
  if h : 0 ≤ slot.1 ∧ slot.1 < (items.length : Int) then
    some { items.get ⟨slot.1.toNat, by omega⟩ with opencl_result := slot.2 }
  else none

/-- The record `item` with its price replaced by `f item.price`. -/
def reprice {D : Type} (f : D → D) (item : FoodItem D) : FoodItem D :=
  { item with price := f item.price }

/-- Whether the record `r` of the store appears in the result of `openclThread`:
some returned entry has its name, quantity and price. -/
def appearsIn {D : Type} [DecidableEq D] (r : FoodItem D) (out : Option (List (FoodItem D))) :
    Bool :=
  match out with
  | none => false
  | some filtered_items =>
    filtered_items.any
      (fun x => decide (x.name = r.name ∧ x.quantity = r.quantity ∧ x.price = r.price))

/-! ## The outbound worker `pythonSender` (lines 305-364) -/

/-- The state at the exit of the retry loop: the number of `connect` calls
issued, the counter `attempts`, and whether the last `connect` call succeeded. -/
structure ConnectState where
  calls : Nat
  attempts : Nat
  connected : Bool
  deriving DecidableEq

/-- The retry loop of lines 321-327,
`while (connect(...) < 0 && attempts < 10) { sleep; attempts++; }`.
`connect k` is the outcome of the `connect` call number `k` (counted from 0),
`true` for a return value that is not negative. Each evaluation of the loop
condition calls `connect` first and tests `attempts < 10` only when the call
failed. -/
def connectLoop (connect : Nat → Bool) (calls attempts : Nat) : ConnectState :=
  if connect calls then
    ⟨calls + 1, attempts, true⟩
  else if attempts < 10 then
    connectLoop connect (calls + 1) (attempts + 1)
  else
    ⟨calls + 1, attempts, false⟩
termination_by 10 - attempts

/-- The text of `std::to_string(int)`: the decimal digits, after a minus sign
for a negative value. -/
def to_string_int (n : Int) : List Char :=
  if n < 0 then '-' :: Nat.toDigits 10 n.natAbs else Nat.toDigits 10 n.toNat

/-- The message built for one record in lines 343-344; `to_string_double` is
`std::to_string(double)`. -/
def message {D : Type} (to_string_double : D → List Char) (item : FoodItem D) : List Char :=
  item.name ++ [','] ++ to_string_int item.quantity ++ [','] ++ to_string_double item.price
    ++ ['\n']

/-- The end signal of line 349. -/
def end_msg : List Char := ['E', 'N', 'D', '\n']

/-- What `pythonSender` did on its socket: the number of `connect` calls, the
outcome of the last of them, and the `send` calls in order, each with the
message passed and the value `send` returned. -/
structure SenderTrace where
  connectCalls : Nat
  connected : Bool
  sent : List (List Char × Int)
  deriving DecidableEq

/-- The loop of lines 342-346: one `send` per record; `send k msg` is the value
returned by the `send` call number `k` for the message `msg`, which the code
does not look at. -/
def sendItems {D : Type} (to_string_double : D → List Char) (send : Nat → List Char → Int) :
    List (FoodItem D) → List (List Char × Int) → List (List Char × Int)
  | [], sent => sent
  | item :: rest, sent =>
    sendItems to_string_double send rest
      (sent ++ [(message to_string_double item, send sent.length (message to_string_double item))])

/-- The function `pythonSender`, lines 305-364. -/
def pythonSender {D : Type} (to_string_double : D → List Char) (connect : Nat → Bool)
    (send : Nat → List Char → Int) (items : List (FoodItem D)) : SenderTrace :=
  let st := connectLoop connect 0 0
  if st.attempts ≥ 10 then
    ⟨st.calls, st.connected, []⟩
  else
    let sent := sendItems to_string_double send items []
    ⟨st.calls, st.connected, sent ++ [(end_msg, send sent.length end_msg)]⟩

/-! ## The inbound worker `pythonReceiver` (lines 367-459) -/

/-- The member `std::string::find(char)`: the position of the first occurrence
of `c` in `s`, `none` for `npos`. -/
def find (s : List Char) (c : Char) : Option Nat :=
  match s with
  | [] => none
  | x :: xs => if x = c then some 0 else (find xs c).map (fun pos => pos + 1)

/-- The sentinel line `"END"` of line 428. -/
def END : List Char := ['E', 'N', 'D']

/-- The terminator `'\0'` written at `buffer[bytes]` in line 420. -/
def NUL : Char := Char.ofNat 0

/-- The characters that `accumulated += buffer` (line 421) appends: `buffer` is a
`char` array, so the append takes the C string in it, which ends before the
first `'\0'`; `data` are the `bytes` bytes that `recv` stored, and line 420
puts a `'\0'` after them. -/
def cString (data : List Char) : List Char :=
  data.takeWhile (fun ch => ch ≠ NUL)

/-- How the inner `while` loop of lines 424-442 is left. -/
inductive LineOutcome (D : Type) where
  /-- No newline is left in `accumulated`: back to `recv`. -/
  | more (accumulated : List Char) (items : List (FoodItem D))
  /-- An `END` line was read: `goto finish_receive`. -/
  | finish (items : List (FoodItem D))
  /-- A call of `std::stod` threw; nothing catches the exception. -/
  | threw
  deriving DecidableEq

/-- The inner loop of lines 424-442 on the current `accumulated` and `items`.
`stod` is `std::stod` (`none` when it throws `std::invalid_argument` or
`std::out_of_range`), `zero` is the literal `0.0`. -/
def processLines {D : Type} (stod : List Char → Option D) (zero : D)
    (accumulated : List Char) (items : List (FoodItem D)) : LineOutcome D :=
  match h : find accumulated '\n' with
  | none => .more accumulated items
  | some pos =>
    let line := accumulated.take pos
    let rest := accumulated.drop (pos + 1)
    if line = END then
      .finish items
    else
      match find line ',' with
      | none => processLines stod zero rest items
      | some comma =>
        match stod (line.drop (comma + 1)) with
        | none => .threw
        | some score =>
          processLines stod zero rest (items ++ [⟨line.take comma, 0, zero, 0, score⟩])
termination_by accumulated.length
decreasing_by
  all_goals
    have bound : ∀ (s : List Char) (c : Char) (p : Nat), find s c = some p → p < s.length := by
      intro s c
      induction s with
      | nil => intro p hp; simp [find] at hp
      | cons x xs ih =>
        intro p hp
        unfold find at hp
        split_ifs at hp with hx
        · simp at hp; subst hp; simp
        · simp only [Option.map_eq_some'] at hp
          obtain ⟨q, hq, rfl⟩ := hp
          have := ih q hq
          simp; omega
    have hb := bound accumulated '\n' pos h
    simp only [List.length_drop]
    omega

/-- How `pythonReceiver` ends: it returns with the entries in `items`, or an
exception of `std::stod` leaves the function. -/
inductive RecvResult (D : Type) where
  | returned (items : List (FoodItem D))
  | threw
  deriving DecidableEq

/-- The receive loop of lines 416-443. The argument lists what the successive
`recv` calls deliver: each element is the data of one call (`bytes` is its
length, at most `sizeof(buffer) - 1 = 4095`); an empty element, or the end of
the list, is a `recv` that returns a value `<= 0`. -/
def receiveLoop {D : Type} (stod : List Char → Option D) (zero : D) :
    List (List Char) → List Char → List (FoodItem D) → RecvResult D
  | [], _, items => .returned items
  | data :: reads, accumulated, items =>
    if data.length ≤ 0 then
      .returned items
    else
      match processLines stod zero (accumulated ++ cString data) items with
      | .more accumulated2 items2 => receiveLoop stod zero reads accumulated2 items2
      | .finish items2 => .returned items2
      | .threw => .threw

/-- The receive phase of `pythonReceiver`, lines 412-453, on the connection it
accepted: `accumulated` starts empty and `items` is the caller's vector (empty
in `main`). -/
def pythonReceiver {D : Type} (stod : List Char → Option D) (zero : D)
    (reads : List (List Char)) : RecvResult D :=
  receiveLoop stod zero reads [] []

/-- The result of `pythonReceiver` when `recv` reports the end of the stream
after the inner loop was left in the given way. -/
def atClose {D : Type} : LineOutcome D → RecvResult D
  | .more _ items => .returned items
  | .finish items => .returned items
  | .threw => .threw

/-- The byte stream made of the given lines, each followed by a newline. -/
def unlines (ls : List (List Char)) : List Char :=
  (ls.map (fun l => l ++ ['\n'])).flatten

/-- Whether the line is accepted by the parse of lines 433-441 without an
exception: it has no comma, or `std::stod` converts the text after its first
comma. -/
def lineParses {D : Type} (stod : List Char → Option D) (line : List Char) : Bool :=
  match find line ',' with
  | none => true
  | some comma => (stod (line.drop (comma + 1))).isSome

/-- The entry that the specification describes for one received line
`name,score`: none for a line without a comma, else the text before the first
comma as name and the parsed text after it as score. -/
def lineEntry {D : Type} (stod : List Char → Option D) (zero : D) (line : List Char) :
    Option (FoodItem D) :=
  match find line ',' with
  | none => none
  | some comma =>
    (stod (line.drop (comma + 1))).map (fun score => ⟨line.take comma, 0, zero, 0, score⟩)

/-! ## Values for the concrete evaluations -/

/-- A record with the given fields and rational numbers for its `double` fields. -/
def sampleItem (name : List Char) (quantity : Int) (price : Rat) (opencl_result : Nat)
    (python_result : Rat) : FoodItem Rat :=
  ⟨name, quantity, price, opencl_result, python_result⟩

/-- A stand-in for `std::stod` in the concrete evaluations: a string of decimal
digits has its value, any other string makes it throw. It agrees with
`std::stod` on the strings it is applied to below. -/
def stodDigits (s : List Char) : Option Rat :=
  if s ≠ [] ∧ s.all Char.isDigit then
    some ((s.foldl (fun n ch => 10 * n + (ch.toNat - '0'.toNat)) 0 : Nat) : Rat)
  else none

/-- A peer result as `pythonReceiver` stores it: name and score, the other
fields zero. -/
def peerEntry (name : List Char) (score : Rat) : FoodItem Rat := ⟨name, 0, 0, 0, score⟩

/-! ## The merge loop: lemmas and claims C1, C2, C3 -/

theorem mergeInner_eq {D : Type} (a : FoodItem D) (acc P : List (FoodItem D)) :
    mergeInner a acc P = acc ++ (mergedEntry P a).toList := by
  induction P with
  | nil => simp [mergeInner, mergedEntry]
  | cons p rest ih =>
    by_cases h : a.name = p.name
    · simp [mergeInner, mergedEntry, h]
    · have h' : ¬ p.name = a.name := fun e => h e.symm
      simp only [mergeInner, h, if_false, ih]
      simp [mergedEntry, List.find?_cons, h']

theorem mergeLoop_eq {D : Type} (P A acc : List (FoodItem D)) :
    mergeLoop P A acc = acc ++ A.filterMap (mergedEntry P) := by
  induction A generalizing acc with
  | nil => simp [mergeLoop]
  | cons a rest ih =>
    simp only [mergeLoop, ih, mergeInner_eq, List.filterMap_cons]
    cases mergedEntry P a <;> simp

theorem merge_eq_filterMap {D : Type} (A P : List (FoodItem D)) :
    merge A P = A.filterMap (mergedEntry P) := by
  simp [merge, mergeLoop_eq]

theorem mergedEntry_isSome_iff {D : Type} (P : List (FoodItem D)) (a : FoodItem D) :
    (mergedEntry P a).isSome = true ↔ ∃ p ∈ P, p.name = a.name := by
  simp [mergedEntry, List.find?_isSome]

theorem mergedEntry_name {D : Type} (P : List (FoodItem D)) (a m : FoodItem D)
    (h : mergedEntry P a = some m) : m.name = a.name := by
  simp only [mergedEntry, Option.map_eq_some'] at h
  obtain ⟨p, _, rfl⟩ := h
  rfl

theorem filterMap_mergedEntry_length_le_of_nodup {D : Type} (A P : List (FoodItem D))
    (hA : (A.map (fun a => a.name)).Nodup) :
    (A.filterMap (mergedEntry P)).length ≤ P.length := by
  have hname : (A.filterMap (mergedEntry P)).map (fun m => m.name)
      = (A.filter (fun a => (mergedEntry P a).isSome)).map (fun a => a.name) := by
    clear hA
    induction A with
    | nil => rfl
    | cons a rest ih =>
      cases h : mergedEntry P a with
      | none => simp [List.filterMap_cons, List.filter_cons, h, ih]
      | some m => simp [List.filterMap_cons, List.filter_cons, h, ih, mergedEntry_name P a m h]
  have hnd : ((A.filter (fun a => (mergedEntry P a).isSome)).map (fun a => a.name)).Nodup :=
    hA.sublist ((List.filter_sublist A).map _)
  have hsub : (A.filter (fun a => (mergedEntry P a).isSome)).map (fun a => a.name)
      ⊆ P.map (fun p => p.name) := by
    intro n hn
    simp only [List.mem_map, List.mem_filter] at hn
    obtain ⟨a, ⟨_, hs⟩, rfl⟩ := hn
    obtain ⟨p, hp, hpn⟩ := (mergedEntry_isSome_iff P a).1 hs
    exact List.mem_map.2 ⟨p, hp, hpn⟩
  have hlen := (hnd.subperm hsub).length_le
  rw [← hname] at hlen
  simpa using hlen

/-- C1 (merge key discipline): the merge loop of `main` produces an entry named
`N` exactly when `N` names an entry of the accelerator results and also an entry
of the peer results. -/
theorem merge_name_iff {D : Type} (A P : List (FoodItem D)) (N : List Char) :
    (∃ m ∈ merge A P, m.name = N) ↔ (∃ a ∈ A, a.name = N) ∧ (∃ p ∈ P, p.name = N) := by
  rw [merge_eq_filterMap]
  constructor
  · rintro ⟨m, hm, rfl⟩
    obtain ⟨a, ha, hma⟩ := List.mem_filterMap.1 hm
    have hn := mergedEntry_name P a m hma
    have hs : (mergedEntry P a).isSome = true := by simp [hma]
    obtain ⟨p, hp, hpn⟩ := (mergedEntry_isSome_iff P a).1 hs
    exact ⟨⟨a, ha, hn.symm⟩, ⟨p, hp, hpn.trans hn.symm⟩⟩
  · rintro ⟨⟨a, ha, rfl⟩, ⟨p, hp, hpn⟩⟩
    have hs : (mergedEntry P a).isSome = true := (mergedEntry_isSome_iff P a).2 ⟨p, hp, hpn⟩
    obtain ⟨m, hm⟩ := Option.isSome_iff_exists.1 hs
    exact ⟨m, List.mem_filterMap.2 ⟨a, ha, hm⟩, mergedEntry_name P a m hm⟩

/-- C2, as stated, fails: two accelerator entries of the same name and one peer
entry of that name give two merged entries, more than `min 2 1`. -/
theorem merge_count_exceeds_min :
    ¬ (merge [sampleItem ['x'] 25 3 7 0, sampleItem ['x'] 30 4 9 0]
          [sampleItem ['x'] 0 0 0 5]).length
        ≤ min [sampleItem ['x'] 25 3 7 0, sampleItem ['x'] 30 4 9 0].length
            [sampleItem ['x'] 0 0 0 5].length := by
  decide

/-- C2 (merge count bound, amended): the merge loop produces at most `|A|`
entries, and at most `min(|A|, |P|)` entries when the names of the accelerator
results are pairwise distinct. -/
theorem merge_length_le {D : Type} (A P : List (FoodItem D)) :
    (merge A P).length ≤ A.length ∧
      ((A.map (fun a => a.name)).Nodup → (merge A P).length ≤ min A.length P.length) := by
  rw [merge_eq_filterMap]
  have h1 : (A.filterMap (mergedEntry P)).length ≤ A.length := List.length_filterMap_le _ _
  exact ⟨h1, fun hA => le_min h1 (filterMap_mergedEntry_length_le_of_nodup A P hA)⟩

theorem merge_length_le_witness :
    ([sampleItem ['a'] 25 3 7 0, sampleItem ['b'] 30 4 9 0].map (fun a => a.name)).Nodup ∧
      (merge [sampleItem ['a'] 25 3 7 0, sampleItem ['b'] 30 4 9 0]
          [sampleItem ['b'] 0 0 0 5]).length
        ≤ min [sampleItem ['a'] 25 3 7 0, sampleItem ['b'] 30 4 9 0].length
            [sampleItem ['b'] 0 0 0 5].length :=
  ⟨by decide,
   (merge_length_le [sampleItem ['a'] 25 3 7 0, sampleItem ['b'] 30 4 9 0]
      [sampleItem ['b'] 0 0 0 5]).2 (by decide)⟩

/-- C3 (merge order and first match): the merged sequence is the accelerator
sequence, in its order, restricted to the entries whose name occurs among the
peer results; a kept entry keeps its name, quantity, price and accelerator
score and takes the score of the first peer entry of the same name; the other
accelerator entries are dropped. -/
theorem merge_order_first_match {D : Type} (A P : List (FoodItem D)) :
    merge A P
      = (A.filter (fun a => P.any (fun p => decide (p.name = a.name)))).filterMap
          (fun a => (P.find? (fun p => decide (p.name = a.name))).map
            (fun p => ({ name := a.name, quantity := a.quantity, price := a.price,
                         opencl_result := a.opencl_result,
                         python_result := p.python_result } : FoodItem D)))
    ∧ (merge A P).length
        = (A.filter (fun a => P.any (fun p => decide (p.name = a.name)))).length := by
  rw [merge_eq_filterMap]
  induction A with
  | nil => simp
  | cons a rest ih =>
    obtain ⟨ih1, ih2⟩ := ih
    cases hf : P.find? (fun p => decide (p.name = a.name)) with
    | none =>
      have hany : P.any (fun p => decide (p.name = a.name)) = false := by
        rw [List.find?_eq_none] at hf
        simpa using hf
      simp only [List.filterMap_cons, mergedEntry, hf, Option.map_none', List.filter_cons, hany]
      exact ⟨ih1, ih2⟩
    | some p =>
      have hany : P.any (fun p => decide (p.name = a.name)) = true := by
        have := List.mem_of_find?_eq_some hf
        have hp := List.find?_some hf
        exact List.any_eq_true.2 ⟨p, this, hp⟩
      simp only [List.filterMap_cons, mergedEntry, hf, Option.map_some', List.filter_cons, hany,
        if_true, List.length_cons]
      exact ⟨by rw [← ih1], by rw [ih2]⟩

/-! ## The accelerator worker: lemmas and claims C8, C9 -/

theorem toInt32_of_lt (n : Nat) (h : n < 2 ^ 31) : toInt32 n = (n : Int) := by
  unfold toInt32
  omega

theorem storeStep_eq {D : Type} (items : List (FoodItem D)) (indexes : List Int)
    (results : List Nat) (acc : List (FoodItem D)) (i : Nat)
    (hn : items.length < 2 ^ 31) (hi : i < indexes.length) (hr : i < results.length) :
    storeStep items indexes results acc i
      = some (acc ++ (slotEntry items (indexes[i], results[i])).toList) := by
  unfold storeStep slotEntry
  rw [List.getElem?_eq_getElem hi, List.getElem?_eq_getElem hr, toInt32_of_lt _ hn]
  by_cases hg : 0 ≤ indexes[i] ∧ indexes[i] < (items.length : Int)
  · have hb : indexes[i].toNat < items.length := by omega
    simp [hg, List.getElem?_eq_getElem hb]
  · simp [hg]

theorem storeLoop_eq {D : Type} (items : List (FoodItem D)) (indexes : List Int)
    (results : List Nat) (hn : items.length < 2 ^ 31) (k : Nat)
    (hi : k ≤ indexes.length) (hr : k ≤ results.length) (acc : List (FoodItem D)) :
    (List.range k).foldlM (storeStep items indexes results) acc
      = some (acc ++ ((indexes.zip results).take k).filterMap (slotEntry items)) := by
  induction k with
  | zero => simp
  | succ k ih =>
    have hki : k < indexes.length := by omega
    have hkr : k < results.length := by omega
    have hz : k < (indexes.zip results).length := by simp; omega
    rw [List.range_succ, List.foldlM_append, ih (by omega) (by omega)]
    rw [List.take_succ, List.getElem?_eq_getElem hz, List.getElem_zip]
    have hs := storeStep_eq items indexes results
      (acc ++ ((indexes.zip results).take k).filterMap (slotEntry items)) k hn hki hkr
    simp only [Option.bind_eq_bind, Option.some_bind, List.foldlM_cons, List.foldlM_nil, hs,
      Option.toList_some, List.filterMap_append]
    cases hse : slotEntry items (indexes[k], results[k]) <;>
      simp [List.filterMap_cons, hse]

/-- C8 (post-pass reconstruction): for a store of `n` records and a read-back
counter `c` with `0 ≤ c ≤ n`, the "Store results" loop of `openclThread` makes
every vector access in bounds and builds, for the slots `0 .. c-1` in slot
order, the source record at `indexes[i]` with score `results[i]` for exactly the
slots whose index lies in `[0, n)`; slots at positions `≥ c` do not influence
the result. -/
theorem storeResults_reconstruction {D : Type} (items : List (FoodItem D)) (c : Int)
    (indexes : List Int) (results : List Nat)
    (hn : items.length < 2 ^ 31)
    (hi : indexes.length = items.length) (hr : results.length = items.length)
    (hc0 : 0 ≤ c) (hc : c ≤ (items.length : Int)) :
    storeResults items c indexes results []
        = some (((indexes.zip results).take c.toNat).filterMap (slotEntry items))
      ∧ ∀ (indexes2 : List Int) (results2 : List Nat),
          indexes2.length = items.length → results2.length = items.length →
          indexes2.take c.toNat = indexes.take c.toNat →
          results2.take c.toNat = results.take c.toNat →
          storeResults items c indexes2 results2 [] = storeResults items c indexes results [] := by
  have hk : c.toNat ≤ items.length := by omega
  have h1 : ∀ (ix : List Int) (rs : List Nat), ix.length = items.length →
      rs.length = items.length →
      storeResults items c ix rs []
        = some (((ix.zip rs).take c.toNat).filterMap (slotEntry items)) := by
    intro ix rs hix hrs
    unfold storeResults
    rw [storeLoop_eq items ix rs hn c.toNat (by omega) (by omega)]
    simp
  refine ⟨h1 indexes results hi hr, ?_⟩
  intro indexes2 results2 hi2 hr2 hti htr
  rw [h1 indexes results hi hr, h1 indexes2 results2 hi2 hr2]
  simp only [List.zip, List.take_zipWith, hti, htr]

theorem storeResults_reconstruction_witness :
    storeResults [sampleItem ['A'] 25 3 0 0, sampleItem ['B'] 10 1 0 0, sampleItem ['M'] 30 2 0 0]
        2 [2, 0, -1] [77, 55, 0] []
      = some [sampleItem ['M'] 30 2 77 0, sampleItem ['A'] 25 3 55 0] :=
  ((storeResults_reconstruction
    [sampleItem ['A'] 25 3 0 0, sampleItem ['B'] 10 1 0 0, sampleItem ['M'] 30 2 0 0]
    2 [2, 0, -1] [77, 55, 0] (by decide) (by decide) (by decide) (by decide) (by decide)).1).trans
    (by decide)

theorem storeStep_reprice {D : Type} (f : D → D) (items : List (FoodItem D))
    (indexes : List Int) (results : List Nat) (acc : List (FoodItem D)) (i : Nat) :
    storeStep (items.map (reprice f)) indexes results (acc.map (reprice f)) i
      = (storeStep items indexes results acc i).map (List.map (reprice f)) := by
  unfold storeStep
  cases indexes[i]? with
  | none => rfl
  | some org_index =>
    simp only [List.length_map, List.getElem?_map]
    split_ifs with hg
    · cases items[org_index.toNat]? <;> cases results[i]? <;> simp [reprice]
    · rfl

theorem storeLoop_reprice {D : Type} (f : D → D) (items : List (FoodItem D))
    (indexes : List Int) (results : List Nat) (slots : List Nat) (acc : List (FoodItem D)) :
    slots.foldlM (storeStep (items.map (reprice f)) indexes results) (acc.map (reprice f))
      = (slots.foldlM (storeStep items indexes results) acc).map (List.map (reprice f)) := by
  induction slots generalizing acc with
  | nil => rfl
  | cons i rest ih =>
    simp only [List.foldlM_cons, storeStep_reprice, Option.bind_eq_bind]
    cases storeStep items indexes results acc i with
    | none => rfl
    | some acc2 => simpa using ih acc2

theorem openclThread_reprice {D F : Type} (device : Device) (lower : D → F) (f : D → D)
    (setupOk : Bool) (items : List (FoodItem D)) :
    openclThread device lower setupOk (items.map (reprice f)) []
      = (openclThread device lower setupOk items []).map (List.map (reprice f)) := by
  unfold openclThread
  cases setupOk with
  | false => rfl
  | true =>
    have hq : (prepareData lower (items.map (reprice f))).quantities
        = (prepareData lower items).quantities := by
      simp [prepareData, reprice]
    have hx : (prepareData lower (items.map (reprice f))).indexes
        = (prepareData lower items).indexes := by
      simp [prepareData]
    have hc : (prepareData lower (items.map (reprice f))).output_count
        = (prepareData lower items).output_count := rfl
    simp only [if_true, hq, hx, hc, List.length_map]
    cases (device (prepareData lower items).quantities (prepareData lower items).indexes
        (prepareData lower items).output_count (toInt32 items.length) items.length).output_count[0]? with
    | none => rfl
    | some c => exact storeLoop_reprice f items _ _ _ []

/-- Whatever the device program is, `openclThread` cannot return exactly the
records with quantity at least 20 and price at least 2.0 for every store: the
host hands no price to the device. -/
theorem openclThread_no_device_filters_price {F : Type} (device : Device) (lower : Rat → F) :
    ¬ ∀ (items : List (FoodItem Rat)) (r : FoodItem Rat), r ∈ items →
        (appearsIn r (openclThread device lower true items []) = true
          ↔ (20 ≤ r.quantity ∧ 2 ≤ r.price)) := by
  intro hclaim
  have hdear := (hclaim [sampleItem ['C'] 25 (5 / 2) 0 0] (sampleItem ['C'] 25 (5 / 2) 0 0)
    (by simp)).2 (by norm_num [sampleItem])
  have hcheap := (hclaim [sampleItem ['C'] 25 1 0 0] (sampleItem ['C'] 25 1 0 0)
    (by simp)).1
  have hmap : [sampleItem ['C'] 25 1 0 0]
      = [sampleItem ['C'] 25 (5 / 2) 0 0].map (reprice (fun _ => 1)) := by
    simp [sampleItem, reprice]
  rw [hmap, openclThread_reprice] at hcheap
  cases hout : openclThread device lower true [sampleItem ['C'] 25 (5 / 2) 0 0] [] with
  | none =>
    rw [hout] at hdear
    simp [appearsIn] at hdear
  | some out =>
    rw [hout] at hdear hcheap
    simp only [appearsIn, List.any_eq_true, decide_eq_true_eq] at hdear
    obtain ⟨x, hx, hname, hqty, _⟩ := hdear
    have happ : appearsIn (sampleItem ['C'] 25 1 0 0)
        (Option.map (List.map (reprice (fun _ => 1))) (some out)) = true := by
      simp only [appearsIn, Option.map_some', List.any_eq_true, decide_eq_true_eq]
      exact ⟨reprice (fun _ => 1) x, List.mem_map.2 ⟨x, hx, rfl⟩, hname, hqty, rfl⟩
    have hbad := hcheap happ
    norm_num [sampleItem] at hbad

/-- The scenario of the specification: with the kernel modelled as the
quantity threshold, the store `Apple,25,2.5; Bread,10,1.0; Milk,30,2.2` yields
the records named `Apple` and `Milk`. -/
theorem openclThread_scenario_names :
    (openclThread (process_items (fun q => decide (20 ≤ q)) (fun q => q.toNat))
        (fun p : Rat => p) true
        [sampleItem ['A', 'p', 'p', 'l', 'e'] 25 (5 / 2) 0 0,
         sampleItem ['B', 'r', 'e', 'a', 'd'] 10 1 0 0,
         sampleItem ['M', 'i', 'l', 'k'] 30 (11 / 5) 0 0] []).map (List.map (fun r => r.name))
      = some [['A', 'p', 'p', 'l', 'e'], ['M', 'i', 'l', 'k']] := by
  decide

/-! ## The outbound worker: lemmas and claims C6, C7 -/

theorem connectLoop_attempts_lt_iff (connect : Nat → Bool) (n a : Nat) (hn : 10 - a = n)
    (ha : a ≤ 10) :
    (connectLoop connect a a).attempts < 10 ↔ ∃ k, a ≤ k ∧ k < 10 ∧ connect k = true := by
  induction n generalizing a with
  | zero =>
    have h10 : a = 10 := by omega
    subst h10
    rw [connectLoop]
    constructor
    · intro h
      simp only [Nat.lt_irrefl, if_false] at h
      split_ifs at h <;> simp at h
    · rintro ⟨k, h1, h2, _⟩
      omega
  | succ n ih =>
    have hlt : a < 10 := by omega
    rw [connectLoop]
    by_cases hc : connect a = true
    · simp only [hc, if_true, hlt, true_iff]
      exact ⟨a, le_refl a, hlt, hc⟩
    · simp only [hc, hlt, if_true, Bool.false_eq_true, if_false]
      rw [ih (a + 1) (by omega) (by omega)]
      constructor
      · rintro ⟨k, h1, h2, h3⟩
        exact ⟨k, by omega, h2, h3⟩
      · rintro ⟨k, h1, h2, h3⟩
        have hne : k ≠ a := by
          rintro rfl
          exact hc h3
        exact ⟨k, by omega, h2, h3⟩

theorem sendItems_map_fst {D : Type} (to_string_double : D → List Char)
    (send : Nat → List Char → Int) (items : List (FoodItem D)) (sent : List (List Char × Int)) :
    (sendItems to_string_double send items sent).map Prod.fst
      = sent.map Prod.fst ++ items.map (message to_string_double) := by
  induction items generalizing sent with
  | nil => simp [sendItems]
  | cons item rest ih => simp [sendItems, ih]

/-- The stream shape when one of the first ten `connect` calls succeeds, so that
the sender passes its connection check: `pythonSender`
issues exactly `n + 1` `send` calls for a store of `n` records, whatever the
`send` calls return: the message of call `i` is record `i` of the store written
as name, comma, decimal quantity, comma, price text, newline, in the order of
the store, and the last message is the line `END` with its newline. -/
theorem pythonSender_stream_shape {D : Type} (to_string_double : D → List Char)
    (connect : Nat → Bool) (send : Nat → List Char → Int) (items : List (FoodItem D))
    (hconn : ∃ k, k < 10 ∧ connect k = true) :
    (pythonSender to_string_double connect send items).sent.map Prod.fst
        = items.map (fun item =>
            item.name ++ [','] ++ to_string_int item.quantity ++ [','] ++
              to_string_double item.price ++ ['\n'])
          ++ [['E', 'N', 'D', '\n']]
      ∧ (pythonSender to_string_double connect send items).sent.length = items.length + 1 := by
  have hlt : (connectLoop connect 0 0).attempts < 10 := by
    rw [connectLoop_attempts_lt_iff connect 10 0 rfl (by omega)]
    obtain ⟨k, h1, h2⟩ := hconn
    exact ⟨k, Nat.zero_le k, h1, h2⟩
  have hsent : (pythonSender to_string_double connect send items).sent.map Prod.fst
      = items.map (message to_string_double) ++ [end_msg] := by
    simp [pythonSender, Nat.not_le.2 hlt, sendItems_map_fst]
  refine ⟨hsent, ?_⟩
  have := congrArg List.length hsent
  simpa using this

theorem pythonSender_stream_shape_witness :
    (pythonSender (fun _ : Rat => ['2', '.', '5', '0', '0', '0', '0', '0'])
        (fun k => decide (k = 2)) (fun _ _ => -1)
        [sampleItem ['A'] 25 (5 / 2) 0 0, sampleItem ['B'] (-3) (5 / 2) 0 0]).sent.map Prod.fst
      = [['A', ',', '2', '5', ',', '2', '.', '5', '0', '0', '0', '0', '0', '\n'],
         ['B', ',', '-', '3', ',', '2', '.', '5', '0', '0', '0', '0', '0', '\n'],
         ['E', 'N', 'D', '\n']] :=
  ((pythonSender_stream_shape (fun _ : Rat => ['2', '.', '5', '0', '0', '0', '0', '0'])
      (fun k => decide (k = 2)) (fun _ _ => -1)
      [sampleItem ['A'] 25 (5 / 2) 0 0, sampleItem ['B'] (-3) (5 / 2) 0 0]
      ⟨2, by decide, by decide⟩).1).trans (by decide)

/-- The sender sends nothing exactly when each of the first ten `connect` calls
fails; the outcome of the eleventh call does not matter. -/
theorem pythonSender_sent_nil_iff {D : Type} (to_string_double : D → List Char)
    (connect : Nat → Bool) (send : Nat → List Char → Int) (items : List (FoodItem D)) :
    (pythonSender to_string_double connect send items).sent = []
      ↔ ∀ k, k < 10 → connect k = false := by
  have hiff := connectLoop_attempts_lt_iff connect 10 0 rfl (by omega)
  by_cases hlt : (connectLoop connect 0 0).attempts < 10
  · obtain ⟨k, _, hk, hck⟩ := hiff.1 hlt
    constructor
    · intro h
      simp [pythonSender, Nat.not_le.2 hlt] at h
    · intro h
      rw [h k hk] at hck
      simp at hck
  · constructor
    · intro _ k hk
      by_contra hc
      exact hlt (hiff.2 ⟨k, Nat.zero_le k, hk, by simpa using hc⟩)
    · intro _
      simp [pythonSender, Nat.le_of_not_lt hlt]

/-- C6, at the failing input: when the first ten `connect` calls fail and the
eleventh succeeds, the sender is connected, and for a store of two records it
issues no `send` call at all instead of the three messages of the claim. -/
theorem pythonSender_connected_sends_nothing :
    (pythonSender (fun _ : Rat => ['2', '.', '5', '0', '0', '0', '0', '0'])
        (fun k => decide (10 ≤ k)) (fun _ _ => 0)
        [sampleItem ['A'] 25 (5 / 2) 0 0, sampleItem ['B'] 30 (5 / 2) 0 0]).connected = true
    ∧ (pythonSender (fun _ : Rat => ['2', '.', '5', '0', '0', '0', '0', '0'])
        (fun k => decide (10 ≤ k)) (fun _ _ => 0)
        [sampleItem ['A'] 25 (5 / 2) 0 0, sampleItem ['B'] 30 (5 / 2) 0 0]).sent.length = 0
    ∧ [sampleItem ['A'] 25 (5 / 2) 0 0, sampleItem ['B'] 30 (5 / 2) 0 0].length + 1 = 3 := by
  refine ⟨?_, ?_, by decide⟩ <;> simp [pythonSender, connectLoop]

/-- C7, at the failing input: when the first ten `connect` calls fail and the
eleventh succeeds, `pythonSender` has issued eleven `connect` calls, the last of
them successful, and sends nothing, neither a record nor the end signal. -/
theorem pythonSender_eleventh_connect_aborts :
    pythonSender (fun _ : Rat => ['2', '.', '5', '0', '0', '0', '0', '0'])
        (fun k => decide (10 ≤ k)) (fun _ msg => (msg.length : Int))
        [sampleItem ['A'] 25 (5 / 2) 0 0]
      = { connectCalls := 11, connected := true, sent := [] } := by
  simp [pythonSender, connectLoop]

/-! ## The inbound worker: lemmas and claims C4, C5, C10 -/

theorem find_eq_none_iff (s : List Char) (c : Char) : find s c = none ↔ c ∉ s := by
  induction s with
  | nil => simp [find]
  | cons x xs ih =>
    unfold find
    by_cases hx : x = c
    · simp [hx]
    · have hx2 : ¬ c = x := fun e => hx e.symm
      simp [hx, hx2, ih]

theorem find_lt {s : List Char} {c : Char} {p : Nat} (h : find s c = some p) :
    p < s.length := by
  induction s generalizing p with
  | nil => simp [find] at h
  | cons x xs ih =>
    unfold find at h
    split_ifs at h with hx
    · simp at h
      subst h
      simp
    · simp only [Option.map_eq_some'] at h
      obtain ⟨q, hq, rfl⟩ := h
      have := ih hq
      simp
      omega

theorem find_append_left {s : List Char} {c : Char} {p : Nat} (t : List Char)
    (h : find s c = some p) : find (s ++ t) c = some p := by
  induction s generalizing p with
  | nil => simp [find] at h
  | cons x xs ih =>
    unfold find at h
    rw [List.cons_append]
    unfold find
    split_ifs at h ⊢ with hx
    · exact h
    · simp only [Option.map_eq_some'] at h
      obtain ⟨q, hq, rfl⟩ := h
      simp [ih hq]

theorem find_append_cons (l : List Char) (c : Char) (rest : List Char) (h : c ∉ l) :
    find (l ++ c :: rest) c = some l.length := by
  induction l with
  | nil => simp [find]
  | cons x xs ih =>
    have hx : ¬ x = c := fun e => h (by simp [e])
    have hxs : c ∉ xs := fun e => h (by simp [e])
    rw [List.cons_append]
    unfold find
    simp [hx, ih hxs]

theorem processLines_eq {D : Type} (stod : List Char → Option D) (zero : D)
    (accumulated : List Char) (items : List (FoodItem D)) :
    processLines stod zero accumulated items
      = match find accumulated '\n' with
        | none => .more accumulated items
        | some pos =>
          if accumulated.take pos = END then .finish items
          else
            match find (accumulated.take pos) ',' with
            | none => processLines stod zero (accumulated.drop (pos + 1)) items
            | some comma =>
              match stod ((accumulated.take pos).drop (comma + 1)) with
              | none => .threw
              | some score =>
                processLines stod zero (accumulated.drop (pos + 1))
                  (items ++ [⟨(accumulated.take pos).take comma, 0, zero, 0, score⟩]) := by
  rw [processLines]
  split <;> simp_all

theorem processLines_of_no_newline {D : Type} (stod : List Char → Option D) (zero : D)
    (s : List Char) (items : List (FoodItem D)) (h : '\n' ∉ s) :
    processLines stod zero s items = .more s items := by
  rw [processLines_eq, (find_eq_none_iff s '\n').2 h]

theorem processLines_append {D : Type} (stod : List Char → Option D) (zero : D)
    (t : List Char) (n : Nat) :
    ∀ (s : List Char) (items : List (FoodItem D)), s.length = n →
      processLines stod zero (s ++ t) items
        = match processLines stod zero s items with
          | .more acc items2 => processLines stod zero (acc ++ t) items2
          | .finish items2 => .finish items2
          | .threw => .threw := by
  induction n using Nat.strong_induction_on with
  | _ n ih =>
    intro s items hs
    cases hf : find s '\n' with
    | none =>
      rw [processLines_eq stod zero s items, hf]
    | some pos =>
      have hlt := find_lt hf
      have hf2 := find_append_left t hf
      have htake : (s ++ t).take pos = s.take pos :=
        List.take_append_of_le_length (le_of_lt hlt)
      have hdrop : (s ++ t).drop (pos + 1) = s.drop (pos + 1) ++ t :=
        List.drop_append_of_le_length hlt
      have hlen : (s.drop (pos + 1)).length < n := by
        simp only [List.length_drop]
        omega
      rw [processLines_eq stod zero (s ++ t) items, processLines_eq stod zero s items, hf, hf2]
      simp only [htake, hdrop]
      split_ifs
      · rfl
      · cases find (s.take pos) ',' with
        | none => exact ih _ hlen _ _ rfl
        | some comma =>
          dsimp only
          cases stod ((s.take pos).drop (comma + 1)) with
          | none => rfl
          | some score => exact ih _ hlen _ _ rfl

theorem processLines_more_no_newline {D : Type} (stod : List Char → Option D) (zero : D)
    (n : Nat) :
    ∀ (s : List Char) (items : List (FoodItem D)) (acc : List Char) (items2 : List (FoodItem D)),
      s.length = n → processLines stod zero s items = .more acc items2 → '\n' ∉ acc := by
  induction n using Nat.strong_induction_on with
  | _ n ih =>
    intro s items acc items2 hs h
    cases hf : find s '\n' with
    | none =>
      rw [processLines_eq stod zero s items, hf] at h
      simp only [LineOutcome.more.injEq] at h
      rw [← h.1]
      exact (find_eq_none_iff s '\n').1 hf
    | some pos =>
      have hlt := find_lt hf
      have hlen : (s.drop (pos + 1)).length < n := by
        simp only [List.length_drop]
        omega
      rw [processLines_eq stod zero s items, hf] at h
      simp only at h
      split_ifs at h
      cases hc : find (s.take pos) ',' with
      | none =>
        rw [hc] at h
        exact ih _ hlen _ _ _ _ rfl h
      | some comma =>
        rw [hc] at h
        dsimp only at h
        cases hv : stod ((s.take pos).drop (comma + 1)) with
        | none => rw [hv] at h; simp at h
        | some score =>
          rw [hv] at h
          exact ih _ hlen _ _ _ _ rfl h

theorem cString_of_no_NUL (data : List Char) (h : NUL ∉ data) : cString data = data := by
  unfold cString
  rw [List.takeWhile_eq_self_iff]
  intro ch hch
  have : ch ≠ NUL := fun e => h (e ▸ hch)
  simpa using this

/-- On reads that are non-empty and hold no `'\0'`, the receive loop computes
what the inner loop computes on the concatenation of the pending text and all
the reads. -/
theorem receiveLoop_eq {D : Type} (stod : List Char → Option D) (zero : D)
    (reads : List (List Char)) (hreads : ∀ data ∈ reads, data ≠ [] ∧ NUL ∉ data) :
    ∀ (accumulated : List Char) (items : List (FoodItem D)), '\n' ∉ accumulated →
      receiveLoop stod zero reads accumulated items
        = atClose (processLines stod zero (accumulated ++ reads.flatten) items) := by
  induction reads with
  | nil =>
    intro accumulated items hacc
    simp [receiveLoop, processLines_of_no_newline stod zero accumulated items hacc, atClose]
  | cons data rest ih =>
    intro accumulated items hacc
    have hd := hreads data (by simp)
    have hrest : ∀ d ∈ rest, d ≠ [] ∧ NUL ∉ d := fun d hdm => hreads d (by simp [hdm])
    have hpos : ¬ data.length ≤ 0 := by
      have := List.length_pos.2 hd.1
      omega
    rw [receiveLoop, if_neg hpos, cString_of_no_NUL data hd.2, List.flatten_cons,
      ← List.append_assoc, processLines_append stod zero rest.flatten _ _ items rfl]
    cases hp : processLines stod zero (accumulated ++ data) items with
    | more acc2 items2 =>
      exact ih hrest acc2 items2
        (processLines_more_no_newline stod zero _ _ items acc2 items2 rfl hp)
    | finish items2 => rfl
    | threw => rfl

theorem pythonReceiver_eq {D : Type} (stod : List Char → Option D) (zero : D)
    (reads : List (List Char)) (hreads : ∀ data ∈ reads, data ≠ [] ∧ NUL ∉ data) :
    pythonReceiver stod zero reads
      = atClose (processLines stod zero reads.flatten ([] : List (FoodItem D))) := by
  have := receiveLoop_eq stod zero reads hreads [] [] (by simp)
  simpa [pythonReceiver] using this

theorem processLines_line {D : Type} (stod : List Char → Option D) (zero : D)
    (l rest : List Char) (items : List (FoodItem D)) (hnl : '\n' ∉ l) (hend : l ≠ END) :
    processLines stod zero (l ++ '\n' :: rest) items
      = match find l ',' with
        | none => processLines stod zero rest items
        | some comma =>
          match stod (l.drop (comma + 1)) with
          | none => .threw
          | some score => processLines stod zero rest (items ++ [⟨l.take comma, 0, zero, 0, score⟩]) := by
  have htake : (l ++ '\n' :: rest).take l.length = l := by simp
  have hdrop : (l ++ '\n' :: rest).drop (l.length + 1) = rest := by
    rw [← List.drop_drop]
    simp
  rw [processLines_eq, find_append_cons l '\n' rest hnl]
  simp only [htake, hdrop, if_neg hend]

/-- A received line without a comma (and other than `END`) adds no entry, and
the lines after it are processed. -/
theorem processLines_skips_line_without_comma {D : Type} (stod : List Char → Option D)
    (zero : D) (l rest : List Char) (items : List (FoodItem D))
    (hnl : '\n' ∉ l) (hend : l ≠ END) (hcomma : ',' ∉ l) :
    processLines stod zero (l ++ '\n' :: rest) items = processLines stod zero rest items := by
  rw [processLines_line stod zero l rest items hnl hend, (find_eq_none_iff l ',').2 hcomma]

theorem processLines_unlines {D : Type} (stod : List Char → Option D) (zero : D)
    (ls : List (List Char))
    (hls : ∀ l ∈ ls, '\n' ∉ l ∧ l ≠ END ∧ lineParses stod l = true) :
    ∀ (rest : List Char) (items : List (FoodItem D)),
      processLines stod zero (unlines ls ++ rest) items
        = processLines stod zero rest (items ++ ls.filterMap (lineEntry stod zero)) := by
  induction ls with
  | nil =>
    intro rest items
    simp [unlines]
  | cons l ls ih =>
    intro rest items
    obtain ⟨hnl, hend, hp⟩ := hls l (by simp)
    have hrest : ∀ k ∈ ls, '\n' ∉ k ∧ k ≠ END ∧ lineParses stod k = true :=
      fun k hk => hls k (by simp [hk])
    have hsplit : unlines (l :: ls) ++ rest = l ++ '\n' :: (unlines ls ++ rest) := by
      simp [unlines]
    rw [hsplit, processLines_line stod zero l _ items hnl hend]
    unfold lineParses at hp
    cases hc : find l ',' with
    | none =>
      rw [ih hrest]
      simp [List.filterMap_cons, lineEntry, hc]
    | some comma =>
      rw [hc] at hp
      obtain ⟨score, hscore⟩ := Option.isSome_iff_exists.1 hp
      simp only [hscore]
      rw [ih hrest]
      simp [List.filterMap_cons, lineEntry, hc, hscore]

theorem receiveLoop_append {D : Type} (stod : List Char → Option D) (zero : D)
    (pre rest : List (List Char)) (hpre : ∀ data ∈ pre, data ≠ [] ∧ NUL ∉ data) :
    ∀ (accumulated : List Char) (items : List (FoodItem D)), '\n' ∉ accumulated →
      receiveLoop stod zero (pre ++ rest) accumulated items
        = match processLines stod zero (accumulated ++ pre.flatten) items with
          | .more accumulated2 items2 => receiveLoop stod zero rest accumulated2 items2
          | .finish items2 => .returned items2
          | .threw => .threw := by
  induction pre with
  | nil =>
    intro accumulated items hacc
    simp [processLines_of_no_newline stod zero accumulated items hacc]
  | cons data more ih =>
    intro accumulated items hacc
    have hd := hpre data (by simp)
    have hmore : ∀ d ∈ more, d ≠ [] ∧ NUL ∉ d := fun d hdm => hpre d (by simp [hdm])
    have hpos : ¬ data.length ≤ 0 := by
      have := List.length_pos.2 hd.1
      omega
    rw [List.cons_append, receiveLoop, if_neg hpos, cString_of_no_NUL data hd.2,
      List.flatten_cons, ← List.append_assoc,
      processLines_append stod zero more.flatten _ _ items rfl]
    cases hp : processLines stod zero (accumulated ++ data) items with
    | more acc2 items2 =>
      exact ih hmore acc2 items2
        (processLines_more_no_newline stod zero _ _ items acc2 items2 rfl hp)
    | finish items2 => rfl
    | threw => rfl

theorem cString_append_of_no_NUL (head rest : List Char) (h : NUL ∉ head) :
    cString (head ++ rest) = head ++ cString rest := by
  unfold cString
  induction head with
  | nil => rfl
  | cons x xs ih =>
    have hx : x ≠ NUL := fun e => h (by simp [e])
    have hxs : NUL ∉ xs := fun e => h (by simp [e])
    have ih2 := ih hxs
    simp only [List.cons_append, List.takeWhile_cons, hx, ne_eq, not_false_eq_true,
      decide_True, if_true, ih2]

theorem processLines_sentinel {D : Type} (stod : List Char → Option D) (zero : D)
    (ls : List (List Char)) (post : List Char)
    (hls : ∀ l ∈ ls, '\n' ∉ l ∧ l ≠ END ∧ lineParses stod l = true) :
    processLines stod zero (unlines ls ++ (END ++ '\n' :: post)) ([] : List (FoodItem D))
      = .finish (ls.filterMap (lineEntry stod zero)) := by
  rw [processLines_unlines stod zero ls hls, processLines_eq,
    find_append_cons END '\n' post (by decide)]
  simp

theorem receiveLoop_sentinel {D : Type} (stod : List Char → Option D) (zero : D)
    (ls : List (List Char)) (pre : List (List Char)) (lastHead lastRest post : List Char)
    (tail : List (List Char))
    (hls : ∀ l ∈ ls, '\n' ∉ l ∧ l ≠ END ∧ lineParses stod l = true)
    (hpre : ∀ data ∈ pre, data ≠ [] ∧ NUL ∉ data) (hhead : NUL ∉ lastHead)
    (hstream : pre.flatten ++ lastHead = unlines ls ++ (END ++ '\n' :: post)) :
    pythonReceiver stod zero (pre ++ (lastHead ++ lastRest) :: tail)
      = .returned (ls.filterMap (lineEntry stod zero)) := by
  have hfin := processLines_sentinel stod zero ls post hls
  rw [← hstream, processLines_append stod zero lastHead _ pre.flatten [] rfl] at hfin
  unfold pythonReceiver
  rw [receiveLoop_append stod zero pre _ hpre [] [] (by simp), List.nil_append]
  cases hp : processLines stod zero pre.flatten ([] : List (FoodItem D)) with
  | more acc2 items2 =>
    rw [hp] at hfin
    simp only at hfin
    have hacc := processLines_more_no_newline stod zero _ _ _ acc2 items2 rfl hp
    simp only
    rw [receiveLoop]
    by_cases hempty : (lastHead ++ lastRest).length ≤ 0
    · have hnil : lastHead = [] := by
        have : (lastHead ++ lastRest).length = 0 := by omega
        have := List.length_eq_zero.1 this
        exact (List.append_eq_nil.1 this).1
      rw [hnil, List.append_nil, processLines_of_no_newline stod zero acc2 items2 hacc] at hfin
      simp at hfin
    · rw [if_neg hempty, cString_append_of_no_NUL lastHead lastRest hhead, ← List.append_assoc,
        processLines_append stod zero (cString lastRest) _ (acc2 ++ lastHead) items2 rfl, hfin]
  | finish items2 =>
    rw [hp] at hfin
    simp only [LineOutcome.finish.injEq] at hfin
    simp only [hfin]
  | threw =>
    rw [hp] at hfin
    simp at hfin

/-- C4, as stated, fails: in the stream `\0`, newline, `END`, newline, `b,1`,
newline, delivered as two reads that split after the `END` line, the second
line is a complete line equal to `END`, yet the receiver goes on reading and
its result contains the entry of the line that follows; and the stream `a,1`,
`\0`, newline, `b,2`, newline, which ends before any `END` line, gives no
entry, not even that of its complete line `b,2`. -/
theorem pythonReceiver_reads_past_END :
    [[NUL, '\n', 'E', 'N', 'D', '\n'], ['b', ',', '1', '\n']].flatten
        = unlines [[NUL], END, ['b', ',', '1']]
    ∧ pythonReceiver stodDigits 0 [[NUL, '\n', 'E', 'N', 'D', '\n'], ['b', ',', '1', '\n']]
        = .returned [peerEntry ['b'] 1]
    ∧ pythonReceiver stodDigits 0 [[NUL, '\n', 'E', 'N', 'D', '\n']] = .returned []
    ∧ pythonReceiver stodDigits 0 [['a', ',', '1', NUL, '\n', 'b', ',', '2', '\n']]
        = .returned [] := by
  refine ⟨by decide, ?_, ?_, ?_⟩ <;>
    simp [pythonReceiver, receiveLoop, processLines, find, cString, NUL, END, stodDigits,
      peerEntry]

/-- C4 (sentinel termination, amended): when no `'\0'` byte comes before the end
of the first `END` line and the lines before that line each parse without an
exception, `pythonReceiver` returns exactly the entries of the lines before the
first `END` line, whatever bytes follow that line in the same read and whatever
the later reads deliver; and when a stream without `'\0'` bytes ends before an
`END` line, it returns the entries of the complete lines received, leaving out
the unfinished last line. -/
theorem pythonReceiver_sentinel {D : Type} (stod : List Char → Option D) (zero : D)
    (ls : List (List Char))
    (hls : ∀ l ∈ ls, '\n' ∉ l ∧ l ≠ END ∧ lineParses stod l = true) :
    (∀ (pre : List (List Char)) (lastHead lastRest post : List Char)
        (tail : List (List Char)),
        (∀ data ∈ pre, data ≠ [] ∧ NUL ∉ data) → NUL ∉ lastHead →
        pre.flatten ++ lastHead = unlines ls ++ (END ++ '\n' :: post) →
        pythonReceiver stod zero (pre ++ (lastHead ++ lastRest) :: tail)
          = .returned (ls.filterMap (lineEntry stod zero)))
    ∧ (∀ (pre : List (List Char)) (post : List Char) (tail : List (List Char)),
        (∀ data ∈ pre, data ≠ [] ∧ NUL ∉ data) →
        pre.flatten = unlines ls ++ (END ++ '\n' :: post) →
        pythonReceiver stod zero (pre ++ tail)
          = .returned (ls.filterMap (lineEntry stod zero)))
    ∧ (∀ (reads : List (List Char)) (post : List Char),
        (∀ data ∈ reads, data ≠ [] ∧ NUL ∉ data) → '\n' ∉ post →
        reads.flatten = unlines ls ++ post →
        pythonReceiver stod zero reads = .returned (ls.filterMap (lineEntry stod zero))) := by
  refine ⟨?_, ?_, ?_⟩
  · intro pre lastHead lastRest post tail hpre hhead hstream
    exact receiveLoop_sentinel stod zero ls pre lastHead lastRest post tail hls hpre hhead
      hstream
  · intro pre post tail hpre hstream
    unfold pythonReceiver
    rw [receiveLoop_append stod zero pre tail hpre [] [] (by simp), List.nil_append, hstream,
      processLines_sentinel stod zero ls post hls]
  · intro reads post hreads hpost hs
    rw [pythonReceiver_eq stod zero reads hreads, hs, processLines_unlines stod zero ls hls,
      processLines_of_no_newline stod zero post _ hpost]
    simp [atClose]

theorem pythonReceiver_sentinel_witness :
    pythonReceiver stodDigits 0
        [['a', ',', '1', '2', '\n', 'n'], ['o', '\n', 'E'],
         ['N', 'D', '\n', NUL, 'z', ',', '1', '\n'], [NUL, '\n'], ['y', ',', '3', '\n']]
      = .returned [peerEntry ['a'] 12]
    ∧ pythonReceiver stodDigits 0
        [['a', ',', '1', '2', '\n', 'n'], ['o', '\n', 'E', 'N', 'D', '\n', 'z'],
         [NUL, ',', '1', '\n']]
      = .returned [peerEntry ['a'] 12]
    ∧ pythonReceiver stodDigits 0 [['a', ',', '1', '2', '\n', 'n'], ['o', '\n', 'E']]
      = .returned [peerEntry ['a'] 12] :=
  ⟨((pythonReceiver_sentinel stodDigits 0 [['a', ',', '1', '2'], ['n', 'o']] (by decide)).1
        [['a', ',', '1', '2', '\n', 'n'], ['o', '\n', 'E']] ['N', 'D', '\n']
        [NUL, 'z', ',', '1', '\n'] [] [[NUL, '\n'], ['y', ',', '3', '\n']]
        (by decide) (by decide) (by decide)).trans
      (by simp [lineEntry, find, stodDigits, peerEntry]),
   ((pythonReceiver_sentinel stodDigits 0 [['a', ',', '1', '2'], ['n', 'o']] (by decide)).2.1
        [['a', ',', '1', '2', '\n', 'n'], ['o', '\n', 'E', 'N', 'D', '\n', 'z']] ['z']
        [[NUL, ',', '1', '\n']] (by decide) (by decide)).trans
      (by simp [lineEntry, find, stodDigits, peerEntry]),
   ((pythonReceiver_sentinel stodDigits 0 [['a', ',', '1', '2'], ['n', 'o']] (by decide)).2.2
        [['a', ',', '1', '2', '\n', 'n'], ['o', '\n', 'E']]
        ['E'] (by decide) (by decide) (by decide)).trans
      (by simp [lineEntry, find, stodDigits, peerEntry])⟩

/-- C5, at the failing input: when `std::stod` throws on the text `abc`, the
stream `x,abc`, `y,1`, `END` makes `pythonReceiver` end by that exception; the
entry of the well-formed line `y,1` is not returned. -/
theorem pythonReceiver_unparsable_score_throws {D : Type} (stod : List Char → Option D)
    (zero : D) (hstod : stod ['a', 'b', 'c'] = none) :
    pythonReceiver stod zero
        [['x', ',', 'a', 'b', 'c', '\n', 'y', ',', '1', '\n', 'E', 'N', 'D', '\n']]
      = .threw := by
  simp [pythonReceiver, receiveLoop, processLines, find, cString, NUL, END, hstod]

theorem pythonReceiver_unparsable_score_throws_witness :
    stodDigits ['a', 'b', 'c'] = none
    ∧ pythonReceiver stodDigits 0
        [['x', ',', 'a', 'b', 'c', '\n', 'y', ',', '1', '\n', 'E', 'N', 'D', '\n']]
      = .threw :=
  ⟨by decide, pythonReceiver_unparsable_score_throws stodDigits 0 (by decide)⟩

/-- C10, as stated, fails: the stream `x`, `\0`, `,1`, newline gives no entry
when it arrives in one read and the entry `x,1` when it arrives in two reads
split after the `\0`. -/
theorem pythonReceiver_framing_depends_on_reads :
    [['x', NUL, ',', '1', '\n']].flatten = [['x', NUL], [',', '1', '\n']].flatten
    ∧ [['x', NUL, ',', '1', '\n']].all
        (fun data => decide (data ≠ []) && decide (data.length ≤ 4095)) = true
    ∧ [['x', NUL], [',', '1', '\n']].all
        (fun data => decide (data ≠ []) && decide (data.length ≤ 4095)) = true
    ∧ pythonReceiver stodDigits 0 [['x', NUL, ',', '1', '\n']] = .returned []
    ∧ pythonReceiver stodDigits 0 [['x', NUL], [',', '1', '\n']]
        = .returned [peerEntry ['x'] 1] := by
  refine ⟨by decide, by decide, by decide, ?_, ?_⟩ <;>
    simp [pythonReceiver, receiveLoop, processLines, find, cString, NUL, END, stodDigits,
      peerEntry]

/-- C10 (framing independent of read boundaries, amended): for a byte stream
that holds no `'\0'` byte, any two ways of delivering it as non-empty reads
make `pythonReceiver` end in the same way with the same entries in the same
order. -/
theorem pythonReceiver_framing {D : Type} (stod : List Char → Option D) (zero : D)
    (reads1 reads2 : List (List Char))
    (h1 : ∀ data ∈ reads1, data ≠ [] ∧ NUL ∉ data)
    (h2 : ∀ data ∈ reads2, data ≠ [] ∧ NUL ∉ data)
    (hstream : reads1.flatten = reads2.flatten) :
    pythonReceiver stod zero reads1 = pythonReceiver stod zero reads2 := by
  rw [pythonReceiver_eq stod zero reads1 h1, pythonReceiver_eq stod zero reads2 h2, hstream]

theorem pythonReceiver_framing_witness :
    pythonReceiver stodDigits 0 [['a', ',', '1', '\n', 'b'], [',', '2', '\n', 'E', 'N', 'D', '\n']]
      = pythonReceiver stodDigits 0
          [['a'], [',', '1', '\n', 'b', ',', '2'], ['\n', 'E', 'N'], ['D', '\n']] :=
  pythonReceiver_framing stodDigits 0
    [['a', ',', '1', '\n', 'b'], [',', '2', '\n', 'E', 'N', 'D', '\n']]
    [['a'], [',', '1', '\n', 'b', ',', '2'], ['\n', 'E', 'N'], ['D', '\n']]
    (by decide) (by decide) (by decide)

end Lygiagretus
